import Mathlib

/-!
Verification development for the document-synchronization core of
`tree-sitter-lint-lsp` (`src/main.rs`).

The text buffer (a `ropey::Rope` in the source) is embedded as a `List Char`;
byte quantities use each character's UTF-8 size (`Char.utf8Size`).  The
coordinate translators, the edit applier of `Backend::did_change`, the
document store (a `DashMap` in the source) and the diagnostics reporter are
translated directly from the source.  The external tree-sitter parser is
modelled from the spec (it is an external capability of this repository):
it produces a tree whose leaves tile the parsed text by byte ranges.
-/

set_option autoImplicit false

namespace TreeSitterLintLsp

/-- Total UTF-8 byte length of a character list (ropey's `len_bytes`). -/
def utf8Len (s : List Char) : Nat := (s.map Char.utf8Size).sum

/-- Ropey `char_to_byte`: byte offset of the character at a character index
(out-of-range indices clamp to the total byte length; ropey would panic,
and all uses here are in-bounds). -/
def charToByte : List Char → Nat → Nat
  | _, 0 => 0
  | [], _ + 1 => 0
  | c :: rest, n + 1 => c.utf8Size + charToByte rest n

/-- Ropey `byte_to_char`: character index of the character containing a
byte offset. -/
def byteToChar : List Char → Nat → Nat
  | [], _ => 0
  | c :: rest, b => if b < c.utf8Size then 0 else 1 + byteToChar rest (b - c.utf8Size)

/-- Ropey `byte_to_line`: index of the line containing a byte offset, with
lines separated by a terminating newline character. -/
def byteToLine : List Char → Nat → Nat
  | [], _ => 0
  | c :: rest, b =>
    if b < c.utf8Size then 0
    else (if c = '\n' then 1 else 0) + byteToLine rest (b - c.utf8Size)

/-- Ropey `line_to_byte`: byte offset of the start of a line. -/
def lineToByte : List Char → Nat → Nat
  | _, 0 => 0
  | [], _ + 1 => 0
  | c :: rest, n + 1 =>
    if c = '\n' then c.utf8Size + lineToByte rest n
    else c.utf8Size + lineToByte rest (n + 1)

/-- Ropey `line_to_char`: character index of the start of a line. -/
def lineToChar : List Char → Nat → Nat
  | _, 0 => 0
  | [], _ + 1 => 0
  | c :: rest, n + 1 =>
    if c = '\n' then 1 + lineToChar rest n
    else 1 + lineToChar rest (n + 1)

/-- Ropey `remove(a..b)` on a character-index range. -/
def ropeRemove (s : List Char) (a b : Nat) : List Char := s.take a ++ s.drop b

/-- Ropey `insert(i, t)` at a character index. -/
def ropeInsert (s : List Char) (i : Nat) (t : List Char) : List Char :=
  s.take i ++ t ++ s.drop i

/-- LSP `Position` (line, character) as used by the source. -/
structure Position where
  line : Nat
  character : Nat
deriving DecidableEq, Repr

/-- LSP `Range` of two positions. -/
structure LspRange where
  start : Position
  «end» : Position
deriving DecidableEq, Repr

/-- Tree-sitter `Point` (row, column-in-bytes). -/
structure Point where
  row : Nat
  column : Nat
deriving DecidableEq, Repr

/-- `lsp_position_to_char_offset` from the source. -/
def lsp_position_to_char_offset (file_contents : List Char) (position : Position) : Nat :=
  lineToChar file_contents position.line + position.character

/-- `position_to_point` from the source. -/
def position_to_point (position : Position) : Point :=
  { row := position.line, column := position.character }

/-- `point_to_position` from the source. -/
def point_to_position (point : Point) : Position :=
  { line := point.row, character := point.column }

/-- `byte_offset_to_point` from the source. -/
def byte_offset_to_point (file_contents : List Char) (byte_offset : Nat) : Point :=
  let line_num := byteToLine file_contents byte_offset
  let start_of_line_byte_offset := lineToByte file_contents line_num
  { row := line_num, column := byte_offset - start_of_line_byte_offset }

/-- Tree-sitter `Range` (byte offsets and points). -/
structure TSRange where
  start_byte : Nat
  end_byte : Nat
  start_point : Point
  end_point : Point
deriving DecidableEq, Repr

/-- `tree_sitter_range_to_lsp_range` from the source. -/
def tree_sitter_range_to_lsp_range (file_contents : List Char) (range : TSRange) : LspRange :=
  { start := point_to_position (byte_offset_to_point file_contents range.start_byte)
    «end» := point_to_position (byte_offset_to_point file_contents range.end_byte) }

/-- Tree-sitter `InputEdit` as constructed by `Backend::did_change`. -/
structure InputEdit where
  start_byte : Nat
  old_end_byte : Nat
  new_end_byte : Nat
  start_position : Point
  old_end_position : Point
  new_end_position : Point
deriving DecidableEq, Repr

/-- Modelled from the spec: the syntax tree produced by the external
tree-sitter parser capability.  `leaves` is the list of byte ranges of the
tree's leaves, tiling the parsed text; `pendingEdits` records the edit
annotations applied with `Tree.edit` since the last parse. -/
structure Tree where
  leaves : List (Nat × Nat)
  pendingEdits : List InputEdit
deriving DecidableEq, Repr

/-- Modelled from the spec: `tree.edit(&input_edit)` informs the prior tree
of the edited byte range and boundary points. -/
def Tree.edit (t : Tree) (e : InputEdit) : Tree :=
  { t with pendingEdits := t.pendingEdits ++ [e] }

/-- Byte ranges of the leaves of a parse of `buf`, one leaf per character,
starting at byte offset `start`. -/
def leafRanges : List Char → Nat → List (Nat × Nat)
  | [], _ => []
  | c :: rest, start => (start, start + c.utf8Size) :: leafRanges rest (start + c.utf8Size)

/-- Modelled from the spec: the external parser capability (`parse` in the
source wraps `tree_sitter`): given the text and an optional prior tree as a
reuse hint, it produces a tree describing exactly the given text; the
resulting tree depends only on the text. -/
def parse (contents : List Char) (_old_tree : Option Tree) : Tree :=
  { leaves := leafRanges contents 0, pendingEdits := [] }

/-- `parse_from_scratch` from the source. -/
def parse_from_scratch (contents : List Char) : Tree :=
  parse contents none

/-- The characters of `s` whose byte span lies inside the byte range
`[a, b)`; used to read a leaf's byte range back against a buffer. -/
def byteSlice : List Char → Nat → Nat → List Char
  | [], _, _ => []
  | c :: rest, a, b =>
    if a = 0 then
      if c.utf8Size ≤ b then c :: byteSlice rest 0 (b - c.utf8Size) else []
    else byteSlice rest (a - c.utf8Size) (b - c.utf8Size)

/-- The text described by a tree: the concatenation of the byte ranges of
its leaves read against the buffer. -/
def treeText (buf : List Char) (t : Tree) : List Char :=
  (t.leaves.map (fun r => byteSlice buf r.1 r.2)).flatten

/-- `PerFileState` from the source. -/
structure PerFileState where
  contents : List Char
  tree : Tree
deriving DecidableEq, Repr

/-- The state stored by `did_open` for text `t`: a fresh buffer and a
from-scratch parse. -/
def freshState (text : List Char) : PerFileState :=
  { contents := text, tree := parse_from_scratch text }

/-- One `TextDocumentContentChangeEvent`: an optional range and the
replacement text. -/
structure TextDocumentContentChangeEvent where
  range : Option LspRange
  text : List Char
deriving DecidableEq, Repr

/-- The ranged-change arm of `Backend::did_change` (source lines 108-131):
mutates the buffer and derives the `InputEdit` mutation descriptor. -/
def applyRangedChange (contents : List Char) (range : LspRange) (text : List Char) :
    List Char × InputEdit :=
  let start_char := lsp_position_to_char_offset contents range.start
  let end_char := lsp_position_to_char_offset contents range.«end»
  let start_byte := charToByte contents start_char
  let old_end_byte := charToByte contents end_char
  let contents1 := ropeRemove contents start_char end_char
  let contents2 := ropeInsert contents1 start_char text
  let new_end_byte := start_byte + utf8Len text
  (contents2,
    { start_byte := start_byte
      old_end_byte := old_end_byte
      new_end_byte := new_end_byte
      start_position := position_to_point range.start
      old_end_position := position_to_point range.«end»
      new_end_position := byte_offset_to_point contents2 new_end_byte })

/-- The body of the `for content_change in &params.content_changes` loop of
`Backend::did_change` for one content change. -/
def applyContentChange (st : PerFileState) (cc : TextDocumentContentChangeEvent) :
    PerFileState :=
  match cc.range with
  | some range =>
    let r := applyRangedChange st.contents range cc.text
    { contents := r.1, tree := parse r.1 (some (Tree.edit st.tree r.2)) }
  | none => freshState cc.text

/-- Diagnostic severity levels of the editor protocol. -/
inductive DiagnosticSeverity where
  | ERROR
  | WARNING
  | INFORMATION
  | HINT
deriving DecidableEq, Repr

/-- LSP `NumberOrString` (diagnostic codes). -/
inductive NumberOrString where
  | Number (n : Int)
  | String (s : String)
deriving DecidableEq, Repr

/-- A lint rule as referenced by a violation (`violation.rule.name`). -/
structure Rule where
  name : String
deriving DecidableEq, Repr

/-- A violation returned by the external lint engine. -/
structure Violation where
  message : String
  range : TSRange
  rule : Rule
deriving DecidableEq, Repr

/-- The fields of an LSP `Diagnostic` that the source constructs. -/
structure Diagnostic where
  message : String
  range : LspRange
  severity : Option DiagnosticSeverity
  code : Option NumberOrString
  source : Option String
deriving DecidableEq, Repr

/-- The diagnostic built from one violation in
`run_linting_and_report_diagnostics`. -/
def mkDiagnostic (file_contents : List Char) (violation : Violation) : Diagnostic :=
  { message := violation.message
    range := tree_sitter_range_to_lsp_range file_contents violation.range
    severity := some DiagnosticSeverity.ERROR
    code := some (NumberOrString.String violation.rule.name)
    source := some ("tree-sitter-lint") }

/-- The external lint engine (`tree_sitter_lint_local::run_for_slice`):
a pure function of the buffer contents and the current tree. -/
abbrev LintEngine : Type := List Char → Tree → List Violation

/-- The document store (`DashMap<Url, PerFileState>`), keyed by the
document identity. -/
abbrev Store : Type := String → Option PerFileState

/-- The editor-side map of published diagnostics per document identity. -/
abbrev Published : Type := String → Option (List Diagnostic)

/-- `DashMap::insert` (also models mutation through `get_mut`). -/
def storeInsert (store : Store) (uri : String) (st : PerFileState) : Store :=
  fun u => if u = uri then some st else store u

/-- `client.publish_diagnostics`: replaces the published set for `uri`. -/
def publish (published : Published) (uri : String) (ds : List Diagnostic) : Published :=
  fun u => if u = uri then some ds else published u

/-- `Backend::run_linting_and_report_diagnostics`: looks the document up in
the store (`unwrap` on a missing entry aborts, modelled as `none`), runs the
lint engine on its contents and tree, and publishes one diagnostic per
violation. -/
def run_linting_and_report_diagnostics (engine : LintEngine) (store : Store)
    (published : Published) (uri : String) : Option Published :=
  (store uri).map fun st =>
    publish published uri ((engine st.contents st.tree).map (mkDiagnostic st.contents))

/-- `Backend::did_open`: stores a fresh state for the document and reports
diagnostics. -/
def did_open (engine : LintEngine) (store : Store) (published : Published)
    (uri : String) (text : List Char) : Store × Published :=
  let store1 := storeInsert store uri (freshState text)
  (store1, (run_linting_and_report_diagnostics engine store1 published uri).getD published)

/-- `Backend::did_change`: fetches the existing entry (`expect` aborts on a
missing one, modelled as `none`), applies the content changes in order, and
reports diagnostics. -/
def did_change (engine : LintEngine) (store : Store) (published : Published)
    (uri : String) (content_changes : List TextDocumentContentChangeEvent) :
    Option (Store × Published) :=
  match store uri with
  | none => none
  | some st =>
    let st1 := content_changes.foldl applyContentChange st
    let store1 := storeInsert store uri st1
    some (store1, (run_linting_and_report_diagnostics engine store1 published uri).getD published)

/-! The naive string-splice reference model of the spec, independent of the
buffer's index structures: the text is split into newline-terminated lines,
a position's offset is the summed length of the preceding lines plus the
character column, and an edit splices the replacement text between the
take/drop at the two offsets. -/

/-- Split a text into its lines, each line keeping its terminating newline;
a trailing newline yields a final empty line. -/
def splitLines : List Char → List (List Char)
  | [] => [[]]
  | c :: rest =>
    if c = '\n' then [c] :: splitLines rest
    else (c :: (splitLines rest).headD []) :: (splitLines rest).tail

/-- Character offset of a position under the naive reference model. -/
def naiveOffset (s : List Char) (p : Position) : Nat :=
  (((splitLines s).take p.line).map List.length).sum + p.character

/-- One ranged edit under the naive reference model: plain string splice. -/
def naiveSplice (s : List Char) (r : LspRange) (new : List Char) : List Char :=
  s.take (naiveOffset s r.start) ++ new ++ s.drop (naiveOffset s r.«end»)

/-- A sequence of ranged edits under the naive reference model. -/
def naiveApply (s : List Char) (edits : List (LspRange × List Char)) : List Char :=
  edits.foldl (fun acc e => naiveSplice acc e.1 e.2) s

/-- A ranged edit is in bounds for a buffer: its start offset is at most its
end offset, which is at most the buffer's character length (out-of-bounds
edits are a fatal contract violation in the source). -/
def validEditB (s : List Char) (e : LspRange × List Char) : Bool :=
  Nat.ble (lsp_position_to_char_offset s e.1.start) (lsp_position_to_char_offset s e.1.«end») &&
  Nat.ble (lsp_position_to_char_offset s e.1.«end») s.length

/-- Every edit of the sequence is in bounds for the buffer as produced by
the preceding edits. -/
def validSeqB : List Char → List (LspRange × List Char) → Bool
  | _, [] => true
  | s, e :: es => validEditB s e && validSeqB (naiveSplice s e.1 e.2) es

/-! Concrete inputs used by witnesses and the scenario claims. -/

/-- The scenario buffer `"fn a(){}\n"`. -/
def fnABuf : List Char := ['f', 'n', ' ', 'a', '(', ')', '{', '}', '\n']

/-- The scenario replacement text `"main"`. -/
def mainText : List Char := ['m', 'a', 'i', 'n']

/-- The scenario result `"fn main(){}\n"`. -/
def fnMainBuf : List Char := ['f', 'n', ' ', 'm', 'a', 'i', 'n', '(', ')', '{', '}', '\n']

/-- A 2-line buffer `"abcde\nfg"` whose line 0 holds 5 bytes before its
newline. -/
def twoLineBuf : List Char := ['a', 'b', 'c', 'd', 'e', '\n', 'f', 'g']

/-- A lint engine returning no violations, for witnesses. -/
def demoEngine : LintEngine := fun _ _ => []

/-- A store holding an empty fresh document under every identity, for
witnesses. -/
def demoStore : Store := fun _ => some (freshState [])

/-- An empty published-diagnostics map, for witnesses. -/
def demoPublished : Published := fun _ => none

/-- A small two-line all-single-byte buffer `"ab\ncd"`, for witnesses. -/
def asciiBuf : List Char := ['a', 'b', '\n', 'c', 'd']

/-- A ranged edit on `asciiBuf` replacing its second character with `'x'`,
for witnesses. -/
def demoEdits : List (LspRange × List Char) :=
  [({ start := { line := 0, character := 1 }, «end» := { line := 0, character := 2 } }, ['x'])]

/-- A store holding `asciiBuf` freshly opened under every identity, for
witnesses. -/
def demoStoreAscii : Store := fun _ => some (freshState asciiBuf)

/-- A buffer whose first character is multi-byte, refuting the coordinate
inverse law as stated. -/
def multibyteBuf : List Char := ['é', 'a']

/-- C3: a content change with no range discards the prior buffer and tree
entirely; the resulting state equals the state a fresh open of the new text
stores (a from-scratch parse, no residue of the prior tree). -/
theorem full_replace_resets_state (st : PerFileState) (text : List Char)
    (engine : LintEngine) (store : Store) (published : Published) (uri : String) :
    applyContentChange st { range := none, text := text } = freshState text ∧
    (did_open engine store published uri text).1 uri = some (freshState text) := by
  refine ⟨rfl, ?_⟩
  simp [did_open, storeInsert]

/-- C5: a violation's byte range is reported by translating each endpoint
byte offset to a point (row = containing line, column = byte offset minus
the line's starting byte offset) and mapping row to line and column to
character directly; in particular bytes `[3, 7)` of a 2-line buffer whose
line 0 holds 5 bytes before its newline resolve to
(line 0, char 3)-(line 1, char 1). -/
theorem violation_range_translation :
    (∀ (buf : List Char) (r : TSRange),
        tree_sitter_range_to_lsp_range buf r =
          { start := point_to_position
              { row := byteToLine buf r.start_byte
                column := r.start_byte - lineToByte buf (byteToLine buf r.start_byte) }
            «end» := point_to_position
              { row := byteToLine buf r.end_byte
                column := r.end_byte - lineToByte buf (byteToLine buf r.end_byte) } }) ∧
    tree_sitter_range_to_lsp_range twoLineBuf
        { start_byte := 3, end_byte := 7
          start_point := { row := 0, column := 0 }, end_point := { row := 0, column := 0 } } =
      { start := { line := 0, character := 3 }, «end» := { line := 1, character := 1 } } := by
  exact ⟨fun buf r => rfl, by decide⟩

/-- C9: opening a document identity that is already tracked silently stores
a fresh buffer and a fresh parse of the newly supplied text, regardless of
the prior entry. -/
theorem reopen_replaces_state (engine : LintEngine) (store : Store) (published : Published)
    (uri : String) (text : List Char) :
    (did_open engine store published uri text).1 uri =
      some { contents := text, tree := parse_from_scratch text } := by
  simp [did_open, storeInsert, freshState]

/-- C2 (counterexample): replacing line 0 characters 5-6 of `"fn a(){}\n"`
with `"main"` does not yield `"fn main(){}\n"` (it yields
`"fn a(main{}\n"`): in that buffer the `a` occupies characters 3-4, not
5-6. -/
theorem ranged_edit_scenario_cex :
    (applyRangedChange fnABuf
        { start := { line := 0, character := 5 }, «end» := { line := 0, character := 6 } }
        mainText).1 ≠ fnMainBuf ∧
    (applyRangedChange fnABuf
        { start := { line := 0, character := 5 }, «end» := { line := 0, character := 6 } }
        mainText).1 = ['f', 'n', ' ', 'a', '(', 'm', 'a', 'i', 'n', '{', '}', '\n'] := by
  decide

/-- C2 (amended): for every ranged change the edit applier removes the
character range derived via the coordinate translator and inserts the
replacement text at its start, and the emitted mutation descriptor computes
`start_byte` and `old_end_byte` from the buffer before mutation,
`new_end_byte = start_byte + byte_length(new_text)` and `new_end_point` by
`byte_offset_to_point` on the buffer after mutation; in particular, for
`"fn a(){}\n"` with a ranged edit replacing line 0 characters 3-4 (the `a`)
by `"main"`, the resulting buffer is `"fn main(){}\n"` and the descriptor
has `old_end_byte - start_byte = 1` and `new_end_byte - start_byte = 4`. -/
theorem ranged_edit_descriptor :
    (∀ (s : List Char) (r : LspRange) (t : List Char),
        (applyRangedChange s r t).1 =
          ropeInsert
            (ropeRemove s (lsp_position_to_char_offset s r.start)
              (lsp_position_to_char_offset s r.«end»))
            (lsp_position_to_char_offset s r.start) t ∧
        (applyRangedChange s r t).2.start_byte =
          charToByte s (lsp_position_to_char_offset s r.start) ∧
        (applyRangedChange s r t).2.old_end_byte =
          charToByte s (lsp_position_to_char_offset s r.«end») ∧
        (applyRangedChange s r t).2.new_end_byte =
          (applyRangedChange s r t).2.start_byte + utf8Len t ∧
        (applyRangedChange s r t).2.new_end_position =
          byte_offset_to_point (applyRangedChange s r t).1
            (applyRangedChange s r t).2.new_end_byte) ∧
    (applyRangedChange fnABuf
        { start := { line := 0, character := 3 }, «end» := { line := 0, character := 4 } }
        mainText).1 = fnMainBuf ∧
    (applyRangedChange fnABuf
        { start := { line := 0, character := 3 }, «end» := { line := 0, character := 4 } }
        mainText).2.old_end_byte -
      (applyRangedChange fnABuf
        { start := { line := 0, character := 3 }, «end» := { line := 0, character := 4 } }
        mainText).2.start_byte = 1 ∧
    (applyRangedChange fnABuf
        { start := { line := 0, character := 3 }, «end» := { line := 0, character := 4 } }
        mainText).2.new_end_byte -
      (applyRangedChange fnABuf
        { start := { line := 0, character := 3 }, «end» := { line := 0, character := 4 } }
        mainText).2.start_byte = 4 := by
  refine ⟨fun s r t => ⟨rfl, rfl, rfl, rfl, rfl⟩, by decide, by decide, by decide⟩

/-- C8: a change notification for a document identity with no entry in the
store is a fatal contract violation: the handler aborts, creating no entry
and publishing nothing. -/
theorem change_on_unopened_aborts (engine : LintEngine) (store : Store)
    (published : Published) (uri : String)
    (ccs : List TextDocumentContentChangeEvent)
    (h : store uri = none) :
    did_change engine store published uri ccs = none := by
  unfold did_change
  rw [h]

/-- Witness for C8 at a concrete empty store. -/
theorem change_on_unopened_aborts_witness :
    did_change demoEngine (fun _ => none) demoPublished ("file:a") [] = none :=
  change_on_unopened_aborts demoEngine (fun _ => none) demoPublished ("file:a") [] rfl

/-- C6: the reporter publishes one diagnostic per violation, carrying the
violation's message, its byte range translated to an editor range, severity
fixed at the error level, the rule identity as the code and the source tag
"tree-sitter-lint"; the published list is a full-replace snapshot,
independent of whatever was previously published for the document. -/
theorem diagnostics_reporting (engine : LintEngine) (store : Store)
    (published : Published) (uri : String) (st : PerFileState) (vs : List Violation)
    (hst : store uri = some st) (hvs : engine st.contents st.tree = vs) :
    run_linting_and_report_diagnostics engine store published uri =
      some (publish published uri (vs.map (mkDiagnostic st.contents))) ∧
    publish published uri (vs.map (mkDiagnostic st.contents)) uri =
      some (vs.map (mkDiagnostic st.contents)) ∧
    vs.map (mkDiagnostic st.contents) = vs.map (fun v =>
      { message := v.message
        range := tree_sitter_range_to_lsp_range st.contents v.range
        severity := some DiagnosticSeverity.ERROR
        code := some (NumberOrString.String v.rule.name)
        source := some ("tree-sitter-lint") }) := by
  refine ⟨?_, ?_, rfl⟩
  · unfold run_linting_and_report_diagnostics
    rw [hst]
    simp only [Option.map_some']
    rw [hvs]
  · simp [publish]

/-- Witness for C6 at a concrete store, engine and document. -/
theorem diagnostics_reporting_witness :
    run_linting_and_report_diagnostics demoEngine demoStoreAscii demoPublished ("file:a") =
      some (publish demoPublished ("file:a")
        (List.map (mkDiagnostic (freshState asciiBuf).contents) [])) ∧
    publish demoPublished ("file:a")
        (List.map (mkDiagnostic (freshState asciiBuf).contents) []) ("file:a") =
      some (List.map (mkDiagnostic (freshState asciiBuf).contents) []) ∧
    List.map (mkDiagnostic (freshState asciiBuf).contents) ([] : List Violation) =
      List.map (fun (v : Violation) =>
        { message := v.message
          range := tree_sitter_range_to_lsp_range (freshState asciiBuf).contents v.range
          severity := some DiagnosticSeverity.ERROR
          code := some (NumberOrString.String v.rule.name)
          source := some ("tree-sitter-lint") }) ([] : List Violation) :=
  diagnostics_reporting demoEngine demoStoreAscii demoPublished ("file:a")
    (freshState asciiBuf) [] rfl rfl

/-- C7: a change notification's content changes are applied in array order,
each against the state as already mutated by the preceding changes, and each
ranged change produces its own mutation descriptor which is fed to the tree
manager (`tree.edit` followed by a reparse of the already-mutated buffer)
before the next change is applied. -/
theorem multi_change_in_order (engine : LintEngine) (store : Store)
    (published : Published) (uri : String) (st : PerFileState)
    (ccs : List TextDocumentContentChangeEvent)
    (h : store uri = some st) :
    (∃ published1, did_change engine store published uri ccs =
        some (storeInsert store uri (ccs.foldl applyContentChange st), published1)) ∧
    (∀ (st0 : PerFileState) (c : TextDocumentContentChangeEvent)
        (cs : List TextDocumentContentChangeEvent),
        List.foldl applyContentChange st0 (c :: cs) =
          List.foldl applyContentChange (applyContentChange st0 c) cs) ∧
    (∀ (st0 : PerFileState) (r : LspRange) (t : List Char),
        applyContentChange st0 { range := some r, text := t } =
          { contents := (applyRangedChange st0.contents r t).1
            tree := parse (applyRangedChange st0.contents r t).1
              (some (Tree.edit st0.tree (applyRangedChange st0.contents r t).2)) }) := by
  refine ⟨⟨(run_linting_and_report_diagnostics engine
      (storeInsert store uri (ccs.foldl applyContentChange st)) published uri).getD published,
      ?_⟩,
    fun st0 c cs => rfl, fun st0 r t => rfl⟩
  unfold did_change
  rw [h]

/-- Witness for C7 at a concrete store and change list. -/
theorem multi_change_in_order_witness :
    (∃ published1,
        did_change demoEngine demoStoreAscii demoPublished ("file:a")
            (demoEdits.map fun e => { range := some e.1, text := e.2 }) =
          some (storeInsert demoStoreAscii ("file:a")
            ((demoEdits.map fun e =>
              ({ range := some e.1, text := e.2 } : TextDocumentContentChangeEvent)).foldl
                applyContentChange (freshState asciiBuf)), published1)) ∧
    (∀ (st0 : PerFileState) (c : TextDocumentContentChangeEvent)
        (cs : List TextDocumentContentChangeEvent),
        List.foldl applyContentChange st0 (c :: cs) =
          List.foldl applyContentChange (applyContentChange st0 c) cs) ∧
    (∀ (st0 : PerFileState) (r : LspRange) (t : List Char),
        applyContentChange st0 { range := some r, text := t } =
          { contents := (applyRangedChange st0.contents r t).1
            tree := parse (applyRangedChange st0.contents r t).1
              (some (Tree.edit st0.tree (applyRangedChange st0.contents r t).2)) }) :=
  multi_change_in_order demoEngine demoStoreAscii demoPublished ("file:a")
    (freshState asciiBuf)
    (demoEdits.map fun e => { range := some e.1, text := e.2 }) rfl

/-- C10: a change notification with an empty content-change list leaves the
document's buffer and tree unchanged (the stored entry is rewritten to its
current value, so the store is pointwise unchanged), yet the handler still
runs the lint engine on the unchanged state and republishes its
diagnostics. -/
theorem empty_changeset_relints (engine : LintEngine) (store : Store)
    (published : Published) (uri : String) (st : PerFileState)
    (h : store uri = some st) :
    ∃ published1,
      did_change engine store published uri [] =
        some (storeInsert store uri st, published1) ∧
      (∀ u, storeInsert store uri st u = store u) ∧
      published1 uri = some ((engine st.contents st.tree).map (mkDiagnostic st.contents)) := by
  refine ⟨publish published uri ((engine st.contents st.tree).map (mkDiagnostic st.contents)),
    ?_, ?_, ?_⟩
  · unfold did_change
    rw [h]
    simp [run_linting_and_report_diagnostics, storeInsert]
  · intro u
    unfold storeInsert
    by_cases hu : u = uri
    · rw [hu, if_pos rfl, h]
    · rw [if_neg hu]
  · simp [publish]

/-- Witness for C10 at a concrete store and document. -/
theorem empty_changeset_relints_witness :
    ∃ published1,
      did_change demoEngine demoStoreAscii demoPublished ("file:a") [] =
        some (storeInsert demoStoreAscii ("file:a") (freshState asciiBuf), published1) ∧
      (∀ u, storeInsert demoStoreAscii ("file:a") (freshState asciiBuf) u = demoStoreAscii u) ∧
      published1 ("file:a") =
        some ((demoEngine (freshState asciiBuf).contents (freshState asciiBuf).tree).map
          (mkDiagnostic (freshState asciiBuf).contents)) :=
  empty_changeset_relints demoEngine demoStoreAscii demoPublished ("file:a")
    (freshState asciiBuf) rfl

/-- On a buffer of single-byte characters, the byte length is the character
count. -/
theorem utf8Len_eq_length_of_ascii (s : List Char) (h : ∀ c ∈ s, c.utf8Size = 1) :
    utf8Len s = s.length := by
  induction s with
  | nil => rfl
  | cons c rest ih =>
    have hc : c.utf8Size = 1 := h c (List.mem_cons_self c rest)
    have := ih (fun d hd => h d (List.mem_cons_of_mem c hd))
    simp only [utf8Len, List.map_cons, List.sum_cons, List.length_cons] at *
    omega

/-- On a buffer of single-byte characters, the character index of the
character containing a valid byte offset is that byte offset. -/
theorem byteToChar_of_ascii (s : List Char) (h : ∀ c ∈ s, c.utf8Size = 1) (b : Nat)
    (hb : b ≤ s.length) :
    byteToChar s b = b := by
  induction s generalizing b with
  | nil =>
    simp only [List.length_nil, Nat.le_zero] at hb
    simp [byteToChar, hb]
  | cons c rest ih =>
    have hc : c.utf8Size = 1 := h c (List.mem_cons_self c rest)
    cases b with
    | zero => simp [byteToChar, hc]
    | succ n =>
      have hn : n ≤ rest.length := by
        simp only [List.length_cons] at hb
        omega
      simp only [byteToChar, hc]
      rw [if_neg (by omega)]
      rw [ih (fun d hd => h d (List.mem_cons_of_mem c hd)) (n + 1 - 1) (by omega)]
      omega

/-- On a buffer of single-byte characters, line starts agree in bytes and
characters. -/
theorem lineToByte_eq_lineToChar_of_ascii (s : List Char) (h : ∀ c ∈ s, c.utf8Size = 1)
    (n : Nat) :
    lineToByte s n = lineToChar s n := by
  induction s generalizing n with
  | nil => cases n <;> rfl
  | cons c rest ih =>
    cases n with
    | zero => rfl
    | succ n =>
      have hc : c.utf8Size = 1 := h c (List.mem_cons_self c rest)
      have ih' := fun m => ih (fun d hd => h d (List.mem_cons_of_mem c hd)) m
      simp only [lineToByte, lineToChar, hc]
      by_cases hcn : c = '\n'
      · rw [if_pos hcn, if_pos hcn, ih']
      · rw [if_neg hcn, if_neg hcn, ih']

/-- The line containing a byte offset starts at or before that offset. -/
theorem lineToByte_byteToLine_le (s : List Char) (b : Nat) :
    lineToByte s (byteToLine s b) ≤ b := by
  induction s generalizing b with
  | nil => simp [byteToLine, lineToByte]
  | cons c rest ih =>
    by_cases hlt : b < c.utf8Size
    · simp only [byteToLine, if_pos hlt]
      exact Nat.zero_le b
    · have hsz : 0 < c.utf8Size := c.utf8Size_pos
      by_cases hcn : c = '\n'
      · simp only [byteToLine, if_neg hlt, if_pos hcn]
        rw [Nat.add_comm 1 (byteToLine rest (b - c.utf8Size))]
        simp only [lineToByte, if_pos hcn]
        have := ih (b - c.utf8Size)
        omega
      · simp only [byteToLine, if_neg hlt, if_neg hcn, Nat.zero_add]
        cases hL : byteToLine rest (b - c.utf8Size) with
        | zero => simp [lineToByte]
        | succ k =>
          have := ih (b - c.utf8Size)
          rw [hL] at this
          simp only [lineToByte, if_neg hcn]
          omega

/-- C4 (counterexample): for the buffer `"éa"` and the valid byte offset 2
(the start of the `a`), the round trip
`position_to_char_offset ∘ point_to_position ∘ byte_offset_to_point`
yields 2 while the character index of the character containing byte 2 is 1:
`byte_offset_to_point` produces a byte column which the round trip then
adds to a character offset, so the law fails on multi-byte characters. -/
theorem coordinate_round_trip_multibyte_cex :
    (2 : Nat) ≤ utf8Len multibyteBuf ∧
    lsp_position_to_char_offset multibyteBuf
        (point_to_position (byte_offset_to_point multibyteBuf 2)) = 2 ∧
    byteToChar multibyteBuf 2 = 1 ∧
    lsp_position_to_char_offset multibyteBuf
        (point_to_position (byte_offset_to_point multibyteBuf 2)) ≠
      byteToChar multibyteBuf 2 := by
  decide

/-- C4 (amended): for every buffer all of whose characters are single-byte
and every valid byte offset `b`,
`position_to_char_offset (buffer, point_to_position (byte_offset_to_point
(buffer, b)))` equals the character index of the character containing byte
`b`; with multi-byte characters before `b` on its line the law fails. -/
theorem coordinate_round_trip_ascii (s : List Char) (b : Nat)
    (hA : ∀ c ∈ s, c.utf8Size = 1) (hb : b ≤ utf8Len s) :
    lsp_position_to_char_offset s (point_to_position (byte_offset_to_point s b)) =
      byteToChar s b := by
  have hlen : utf8Len s = s.length := utf8Len_eq_length_of_ascii s hA
  have h1 : lineToByte s (byteToLine s b) ≤ b := lineToByte_byteToLine_le s b
  have h2 : byteToChar s b = b := byteToChar_of_ascii s hA b (by omega)
  have h3 : lineToByte s (byteToLine s b) = lineToChar s (byteToLine s b) :=
    lineToByte_eq_lineToChar_of_ascii s hA (byteToLine s b)
  simp only [lsp_position_to_char_offset, point_to_position, byte_offset_to_point]
  rw [h2, ← h3]
  omega

/-- Witness for C4 (amended) on an all-single-byte buffer at byte offset
3. -/
theorem coordinate_round_trip_ascii_witness :
    (∀ c ∈ asciiBuf, c.utf8Size = 1) ∧ (3 : Nat) ≤ utf8Len asciiBuf ∧
    lsp_position_to_char_offset asciiBuf
        (point_to_position (byte_offset_to_point asciiBuf 3)) =
      byteToChar asciiBuf 3 :=
  ⟨by decide, by decide, coordinate_round_trip_ascii asciiBuf 3 (by decide) (by decide)⟩

/-- `splitLines` never returns an empty list of lines. -/
theorem splitLines_ne_nil (s : List Char) : splitLines s ≠ [] := by
  cases s with
  | nil => simp [splitLines]
  | cons c rest =>
    by_cases hcn : c = '\n' <;> simp [splitLines, hcn]

/-- The buffer's `line_to_char` agrees with the naive reference model: the
character offset of a line start is the summed length of the preceding
lines. -/
theorem lineToChar_eq_splitLines (s : List Char) (n : Nat) :
    lineToChar s n = (((splitLines s).take n).map List.length).sum := by
  induction s generalizing n with
  | nil =>
    cases n with
    | zero => rfl
    | succ n => simp [lineToChar, splitLines, List.take_succ_cons]
  | cons c rest ih =>
    cases n with
    | zero => rfl
    | succ n =>
      by_cases hcn : c = '\n'
      · simp only [lineToChar, if_pos hcn, splitLines, List.take_succ_cons, List.map_cons,
          List.sum_cons, List.length_cons, List.length_nil]
        rw [ih n]
      · cases hsl : splitLines rest with
        | nil => exact absurd hsl (splitLines_ne_nil rest)
        | cons hd tl =>
          have ihn := ih (n + 1)
          rw [hsl] at ihn
          simp only [List.take_succ_cons, List.map_cons, List.sum_cons] at ihn
          simp only [lineToChar, if_neg hcn, splitLines, hsl, List.headD_cons, List.tail_cons,
            List.take_succ_cons, List.map_cons, List.sum_cons, List.length_cons]
          rw [ihn]
          omega

/-- The source's position-to-character-offset translator agrees with the
naive reference model's offset. -/
theorem lsp_position_to_char_offset_eq_naive (s : List Char) (p : Position) :
    lsp_position_to_char_offset s p = naiveOffset s p := by
  unfold lsp_position_to_char_offset naiveOffset
  rw [lineToChar_eq_splitLines]

/-- Splicing by remove-then-insert equals the one-step splice when the
insertion point is in bounds. -/
theorem remove_insert_eq_splice (s t : List Char) (a b : Nat) (h : a ≤ s.length) :
    ropeInsert (ropeRemove s a b) a t = s.take a ++ t ++ s.drop b := by
  have hlen : (s.take a).length = a := by
    rw [List.length_take]
    omega
  unfold ropeRemove ropeInsert
  rw [List.take_append_eq_append_take, List.take_take, Nat.min_self, hlen, Nat.sub_self,
    List.take_zero, List.append_nil, List.drop_append_eq_append_drop, hlen, Nat.sub_self,
    List.drop_zero, List.drop_eq_nil_of_le (le_of_eq hlen), List.nil_append]

/-- The ranged-change arm of the handler mutates the buffer exactly as the
naive string-splice reference model does, for in-bounds edits. -/
theorem applyRangedChange_contents_eq_naive (s : List Char) (r : LspRange) (t : List Char)
    (h : lsp_position_to_char_offset s r.start ≤ s.length) :
    (applyRangedChange s r t).1 = naiveSplice s r t := by
  show ropeInsert (ropeRemove s (lsp_position_to_char_offset s r.start)
      (lsp_position_to_char_offset s r.«end»)) (lsp_position_to_char_offset s r.start) t =
    naiveSplice s r t
  rw [remove_insert_eq_splice s t _ _ h]
  unfold naiveSplice
  rw [lsp_position_to_char_offset_eq_naive, lsp_position_to_char_offset_eq_naive]

/-- Reading an empty byte range of a buffer yields no characters. -/
theorem byteSlice_zero_zero (s : List Char) : byteSlice s 0 0 = [] := by
  cases s with
  | nil => rfl
  | cons c rest =>
    show (if (0 : Nat) = 0 then
        if c.utf8Size ≤ 0 then c :: byteSlice rest 0 (0 - c.utf8Size) else []
      else byteSlice rest (0 - c.utf8Size) (0 - c.utf8Size)) = []
    rw [if_pos rfl, if_neg (by have := c.utf8Size_pos; omega)]

/-- Reading exactly the first character's byte range yields that
character. -/
theorem byteSlice_head (c : Char) (rest : List Char) :
    byteSlice (c :: rest) 0 c.utf8Size = [c] := by
  show (if (0 : Nat) = 0 then
      if c.utf8Size ≤ c.utf8Size then c :: byteSlice rest 0 (c.utf8Size - c.utf8Size) else []
    else byteSlice rest (0 - c.utf8Size) (c.utf8Size - c.utf8Size)) = [c]
  rw [if_pos rfl, if_pos (Nat.le_refl c.utf8Size), Nat.sub_self, byteSlice_zero_zero]

/-- Byte lengths add across concatenation. -/
theorem utf8Len_append (xs ys : List Char) : utf8Len (xs ++ ys) = utf8Len xs + utf8Len ys := by
  unfold utf8Len
  rw [List.map_append, List.sum_append]

/-- Reading a byte range past a prefix of the buffer reads the same range
of the suffix. -/
theorem byteSlice_skip_front (pre : List Char) (s : List Char) (a b : Nat) :
    byteSlice (pre ++ s) (utf8Len pre + a) (utf8Len pre + b) = byteSlice s a b := by
  induction pre with
  | nil => simp [utf8Len]
  | cons c pre' ih =>
    have hsz : 0 < c.utf8Size := c.utf8Size_pos
    have hl : utf8Len (c :: pre') = c.utf8Size + utf8Len pre' := by
      simp [utf8Len]
    rw [hl]
    show (if c.utf8Size + utf8Len pre' + a = 0 then
        if c.utf8Size ≤ c.utf8Size + utf8Len pre' + b then
          c :: byteSlice (pre' ++ s) 0 (c.utf8Size + utf8Len pre' + b - c.utf8Size)
        else []
      else byteSlice (pre' ++ s) (c.utf8Size + utf8Len pre' + a - c.utf8Size)
        (c.utf8Size + utf8Len pre' + b - c.utf8Size)) = byteSlice s a b
    rw [if_neg (by omega)]
    have ha : c.utf8Size + utf8Len pre' + a - c.utf8Size = utf8Len pre' + a := by omega
    have hb : c.utf8Size + utf8Len pre' + b - c.utf8Size = utf8Len pre' + b := by omega
    rw [ha, hb, ih]

/-- Reading the per-character leaf ranges of a parse back against the
buffer reconstructs the parsed text. -/
theorem leafRanges_read (s : List Char) (pre : List Char) :
    ((leafRanges s (utf8Len pre)).map (fun r => byteSlice (pre ++ s) r.1 r.2)).flatten = s := by
  induction s generalizing pre with
  | nil => simp [leafRanges]
  | cons c rest ih =>
    simp only [leafRanges, List.map_cons, List.flatten_cons]
    have hhead : byteSlice (pre ++ c :: rest) (utf8Len pre) (utf8Len pre + c.utf8Size) = [c] := by
      have := byteSlice_skip_front pre (c :: rest) 0 c.utf8Size
      rw [Nat.add_zero] at this
      rw [this, byteSlice_head]
    have htail := ih (pre ++ [c])
    rw [utf8Len_append] at htail
    have hsingle : utf8Len [c] = c.utf8Size := by simp [utf8Len]
    rw [hsingle] at htail
    rw [List.append_assoc, List.singleton_append] at htail
    rw [hhead, htail]
    rfl

/-- A tree whose leaves are the leaf ranges of the buffer describes exactly
the buffer's text. -/
theorem treeText_of_leaves (buf : List Char) (t : Tree)
    (h : t.leaves = leafRanges buf 0) :
    treeText buf t = buf := by
  unfold treeText
  rw [h]
  have := leafRanges_read buf []
  simpa using this

/-- Applying a valid edit sequence through the change-handler loop mutates
the buffer exactly as the naive reference model does. -/
theorem fold_contents_eq_naiveApply (es : List (LspRange × List Char)) (st : PerFileState)
    (h : validSeqB st.contents es = true) :
    ((es.map fun e => ({ range := some e.1, text := e.2 } : TextDocumentContentChangeEvent)).foldl
        applyContentChange st).contents = naiveApply st.contents es := by
  induction es generalizing st with
  | nil => rfl
  | cons e es ih =>
    have h1 : validEditB st.contents e = true ∧
        validSeqB (naiveSplice st.contents e.1 e.2) es = true := by
      simpa [validSeqB, Bool.and_eq_true] using h
    have hsc : lsp_position_to_char_offset st.contents e.1.start ≤ st.contents.length := by
      have h2 := h1.1
      simp only [validEditB, Bool.and_eq_true, Nat.ble_eq] at h2
      omega
    have hcontents : (applyContentChange st { range := some e.1, text := e.2 }).contents =
        naiveSplice st.contents e.1 e.2 :=
      applyRangedChange_contents_eq_naive st.contents e.1 e.2 hsc
    have hvalid2 : validSeqB
        (applyContentChange st { range := some e.1, text := e.2 }).contents es = true := by
      rw [hcontents]
      exact h1.2
    have hrec := ih (applyContentChange st { range := some e.1, text := e.2 }) hvalid2
    rw [hcontents] at hrec
    simp only [List.map_cons, List.foldl_cons]
    exact hrec

/-- Each pass of the change-handler loop leaves a tree whose leaves tile
the current buffer. -/
theorem applyContentChange_tree_leaves (st : PerFileState)
    (cc : TextDocumentContentChangeEvent) :
    (applyContentChange st cc).tree.leaves =
      leafRanges (applyContentChange st cc).contents 0 := by
  obtain ⟨range, text⟩ := cc
  cases range with
  | none => rfl
  | some r => rfl

/-- The change-handler loop preserves leaf-tiling of the tree over the
buffer. -/
theorem fold_tree_leaves (ccs : List TextDocumentContentChangeEvent) (st : PerFileState)
    (h : st.tree.leaves = leafRanges st.contents 0) :
    (ccs.foldl applyContentChange st).tree.leaves =
      leafRanges (ccs.foldl applyContentChange st).contents 0 := by
  induction ccs generalizing st with
  | nil => exact h
  | cons c cs ih => exact ih _ (applyContentChange_tree_leaves st c)

/-- C1: after the change handler applies any valid sequence of ranged edits
to a freshly opened document, the stored tree describes exactly the stored
buffer: the text read from the byte ranges of the tree's leaves against the
buffer equals the text obtained by applying the same edits to the initial
text with the naive string-splice reference model (and so does the buffer
itself). -/
theorem change_handler_round_trip (t : List Char) (es : List (LspRange × List Char))
    (engine : LintEngine) (store : Store) (published : Published) (uri : String)
    (hstore : store uri = some (freshState t))
    (hvalid : validSeqB t es = true) :
    ∃ store1 published1 st1,
      did_change engine store published uri
          (es.map fun e => { range := some e.1, text := e.2 }) =
        some (store1, published1) ∧
      store1 uri = some st1 ∧
      treeText st1.contents st1.tree = naiveApply t es ∧
      st1.contents = naiveApply t es := by
  have hcontents := fold_contents_eq_naiveApply es (freshState t) hvalid
  have hleaves := fold_tree_leaves
    (es.map fun e => ({ range := some e.1, text := e.2 } : TextDocumentContentChangeEvent))
    (freshState t) rfl
  have htree := treeText_of_leaves _ _ hleaves
  refine ⟨storeInsert store uri
      ((es.map fun e =>
        ({ range := some e.1, text := e.2 } : TextDocumentContentChangeEvent)).foldl
          applyContentChange (freshState t)),
    (run_linting_and_report_diagnostics engine
      (storeInsert store uri
        ((es.map fun e =>
          ({ range := some e.1, text := e.2 } : TextDocumentContentChangeEvent)).foldl
            applyContentChange (freshState t))) published uri).getD published,
    (es.map fun e =>
      ({ range := some e.1, text := e.2 } : TextDocumentContentChangeEvent)).foldl
        applyContentChange (freshState t), ?_, ?_, ?_, ?_⟩
  · unfold did_change
    rw [hstore]
  · simp [storeInsert]
  · rw [htree]
    exact hcontents
  · exact hcontents

/-- Witness for C1 at a concrete document and edit sequence. -/
theorem change_handler_round_trip_witness :
    ∃ store1 published1 st1,
      did_change demoEngine demoStoreAscii demoPublished ("file:a")
          (demoEdits.map fun e => { range := some e.1, text := e.2 }) =
        some (store1, published1) ∧
      store1 ("file:a") = some st1 ∧
      treeText st1.contents st1.tree = naiveApply asciiBuf demoEdits ∧
      st1.contents = naiveApply asciiBuf demoEdits :=
  change_handler_round_trip asciiBuf demoEdits demoEngine demoStoreAscii demoPublished
    ("file:a") rfl (by decide)

end TreeSitterLintLsp
